import Mathlib

/-!
Shallow embedding of the feathersjs-docs-mcp documentation server core:
the URI resolver with traversal protection, markdown discovery, page
parsing, the in-memory index refresh, and the list_docs query layer.
Host-runtime string and path primitives (JavaScript string methods,
Node's posix path functions, decodeURIComponent) are modelled explicitly
at the character-list level; each model notes its scope.
-/

namespace FeathersDocsMcp

/-- Modelled from the JavaScript whitespace class as used by trim and
the heading regex, restricted to the ASCII whitespace characters that
appear in markdown documents. -/
def isJsWs (c : Char) : Bool :=
  c = ' ' || c = '\t' || c = '\n' || c = '\r' || c = '\x0b' || c = '\x0c'

/-- Modelled from String.prototype.toLowerCase restricted to ASCII
letters, the only case-bearing characters the claims exercise. -/
def jsLowerChar (c : Char) : Char :=
  if 'A' ≤ c ∧ c ≤ 'Z' then Char.ofNat (c.toNat + 32) else c

/-- JavaScript toLowerCase over a whole string. -/
def jsToLower (s : String) : String :=
  String.mk (s.data.map jsLowerChar)

/-- JavaScript String.prototype.trim: drop leading and trailing
whitespace. -/
def jsTrim (s : String) : String :=
  String.mk (((s.data.dropWhile isJsWs).reverse.dropWhile isJsWs).reverse)

/-- Substring test over character lists: some suffix position of the
haystack starts with the needle. Models String.prototype.includes. -/
def containsSub (hay needle : List Char) : Bool :=
  (List.range (hay.length + 1)).any (fun i => needle.isPrefixOf (hay.drop i))

/-- JavaScript includes lifted to strings. -/
def jsIncludes (hay needle : String) : Bool :=
  containsSub hay.data needle.data

/-- Split a character list on the slash character, JavaScript
split and the Node path module's segmenting. An empty list yields one
empty segment, as in JavaScript. -/
def splitSlash : List Char → List (List Char)
  | [] => [[]]
  | c :: cs =>
    if c = '/' then [] :: splitSlash cs
    else
      match splitSlash cs with
      | [] => [[c]]
      | g :: gs => (c :: g) :: gs

/-- Join segments with slashes, inverse of splitSlash on slash-free
segments. -/
def joinSlash : List (List Char) → List Char
  | [] => []
  | [s] => s
  | s :: rest => s ++ '/' :: joinSlash rest

/-- Modelled from Node's posix path normalization for absolute paths:
process segments left to right with a stack (kept reversed), dropping
empty and dot segments and popping on dot-dot; dot-dot at the root
stays at the root. -/
def normStack : List (List Char) → List (List Char) → List (List Char)
  | acc, [] => acc.reverse
  | acc, s :: rest =>
    if s = [] ∨ s = ['.'] then normStack acc rest
    else if s = ['.', '.'] then normStack acc.tail rest
    else normStack (s :: acc) rest

/-- Normalize an absolute path given as characters. -/
def normAbsChars (l : List Char) : List Char :=
  '/' :: joinSlash (normStack [] (splitSlash l))

/-- Modelled from Node path.resolve with two arguments, for an absolute
base directory (the configuration always derives docsDir from an
absolute path): an absolute second argument wins, otherwise the
arguments are joined and normalized. -/
def pathResolve (base rel : String) : String :=
  if rel.data.head? = some '/' then String.mk (normAbsChars rel.data)
  else String.mk (normAbsChars (base.data ++ '/' :: rel.data))

/-- Modelled from Node path.resolve with one absolute argument:
normalization only. -/
def pathResolveOne (base : String) : String :=
  String.mk (normAbsChars base.data)

/-- Value of one hexadecimal digit character. -/
def hexDigitVal (c : Char) : Option Nat :=
  if '0' ≤ c ∧ c ≤ '9' then some (c.toNat - 48)
  else if 'a' ≤ c ∧ c ≤ 'f' then some (c.toNat - 87)
  else if 'A' ≤ c ∧ c ≤ 'F' then some (c.toNat - 55)
  else none

/-- Modelled from decodeURIComponent: percent escapes of single-byte
code points decode to that character, a malformed escape is a decode
failure (the host throws URIError). Multi-byte UTF-8 escape sequences
are conservatively modelled as failures; no claim exercises them. -/
def percentDecode : List Char → Option (List Char)
  | [] => some []
  | c :: rest =>
    if c = '%' then
      match rest with
      | c1 :: c2 :: rest2 =>
        match hexDigitVal c1, hexDigitVal c2 with
        | some hi, some lo =>
          if 16 * hi + lo < 128 then
            (percentDecode rest2).map (fun ds => Char.ofNat (16 * hi + lo) :: ds)
          else none
        | _, _ => none
      | _ => none
    else (percentDecode rest).map (fun ds => c :: ds)

/-- The scheme head every docs URI must carry, from src/index.ts. -/
def docUriHead : List Char := "feathers-doc://docs/".data

/-- Failure modes of resolveDocFilePath: a URI without the scheme head,
a URIError from percent-decoding, or the traversal rejection. -/
inductive ResolveError where
  | invalidUri
  | uriError
  | pathTraversal
  deriving DecidableEq, Repr

/-- Embedding of resolveDocFilePath from src/index.ts: require the
scheme head, percent-decode the remainder, resolve it against the docs
directory and reject when the resolved path does not start with the
canonicalized root (the source's startsWith check, verbatim). -/
def resolveDocFilePath (docsDir uri : String) : Except ResolveError String :=
  if docUriHead.isPrefixOf uri.data = false then .error .invalidUri
  else
    match percentDecode (uri.data.drop docUriHead.length) with
    | none => .error .uriError
    | some relChars =>
      let relativePath := String.mk relChars
      let resolved := pathResolve docsDir relativePath
      let root := pathResolveOne docsDir
      if root.data.isPrefixOf resolved.data then .ok resolved
      else .error .pathTraversal

/-- Modelled from the spec's containment notion for the docs root: the
path is the root itself or extends the root at a path-segment
boundary. -/
def liesWithin (root p : String) : Bool :=
  p = root || (root ++ "/").data.isPrefixOf p.data

/-- Embedding of toUri from src/utils.ts: prepend the scheme head to
the relative path with backslashes turned into slashes. -/
def toUri (relativePath : String) : String :=
  "feathers-doc://docs/" ++
    String.mk (relativePath.data.map (fun c => if c = '\\' then '/' else c))

/-- Modelled from the crypto module: the SHA-256 digest treated as an
abstract deterministic function of its input; no claim inspects its
value. -/
def sha256 (input : String) : String :=
  "sha256:" ++ input

/-- Parsed metadata for a single documentation markdown page, from
src/types.ts. -/
structure PageMeta where
  uri : String
  title : String
  relativePath : String
  headings : List String
  checksum : String
  lastModified : Int
  deriving DecidableEq, Repr

/-- Filesystem stat record; only the modification time is consumed. -/
structure FileStat where
  mtimeMs : Int
  deriving DecidableEq, Repr

/-- A node of the on-disk docs tree: a file with content and
modification time, or a directory with named entries in readdir
order. -/
inductive FsNode where
  | file (content : String) (mtimeMs : Int)
  | dir (entries : List (String × FsNode))
  deriving Repr

/-- An error a Node filesystem call can throw (permissions, races
with deletion); existsSync alone never throws. -/
structure FsError where
  message : String
  deriving DecidableEq, Repr

/-- Snapshot of the host filesystem calls the core performs:
existence checks, whole-file reads, stat, and the recursive directory
listing that walk performs via readdirSync. Every call except
existsSync can fail, and the failure propagates as the host exception
does. -/
structure Fs where
  existsSync : String → Bool
  readFileSync : String → Except FsError String
  statSync : String → Except FsError FileStat
  readdirTree : String → Except FsError (List (String × FsNode))

/-- Generalized single-character split used for line splitting. -/
def splitSlashGen (sep : Char) : List Char → List (List Char)
  | [] => [[]]
  | c :: cs =>
    if c = sep then [] :: splitSlashGen sep cs
    else
      match splitSlashGen sep cs with
      | [] => [[c]]
      | g :: gs => (c :: g) :: gs

/-- Generalized join used for line joining. -/
def joinSlashGen (sep : Char) : List (List Char) → List Char
  | [] => []
  | [s] => s
  | s :: rest => s ++ sep :: joinSlashGen sep rest

/-- Split a string into lines at newline characters, JavaScript
split. -/
def jsSplitLines (s : String) : List String :=
  (splitSlashGen '\n' s.data).map String.mk

/-- Join lines back with newlines. -/
def joinLines (ls : List String) : String :=
  String.mk (joinSlashGen '\n' (ls.map String.data))

/-- A front-matter value as the title check sees it: a string, or
anything whose typeof is not string. -/
inductive YamlVal where
  | str (s : String)
  | other
  deriving DecidableEq, Repr

/-- Result of the front-matter split: key/value data and the body. -/
structure GmResult where
  data : List (String × YamlVal)
  content : String
  deriving DecidableEq, Repr

/-- Classify one scalar of the key/value subset of YAML the docs use:
double-quoted values are strings, bare numbers, booleans, null and the
empty value are non-strings, any other bare value is a plain string. -/
def yamlScalar (v : String) : YamlVal :=
  if v = "" then .other
  else if v.data.head? = some '"' ∧ v.data.getLast? = some '"' ∧ 2 ≤ v.data.length then
    .str (String.mk ((v.data.drop 1).take (v.data.length - 2)))
  else if v.data.all Char.isDigit ∨ v = "true" ∨ v = "false" ∨ v = "null" then .other
  else .str v

/-- Split a line at its first colon into trimmed key and value. -/
def yamlLineKV (l : String) : Option (String × YamlVal) :=
  match l.data.findIdx? (· = ':') with
  | none => none
  | some i =>
    some (jsTrim (String.mk (l.data.take i)),
      yamlScalar (jsTrim (String.mk (l.data.drop (i + 1)))))

/-- Split the front-matter block at its closing delimiter line. -/
def splitAtDelim : List String → Option (List String × List String)
  | [] => none
  | l :: rest =>
    if l = "---" then some ([], rest)
    else (splitAtDelim rest).map (fun p => (l :: p.1, p.2))

/-- Modelled from the gray-matter library for the subset the docs
exercise: a leading delimiter line opens a front-matter block of
key/value lines closed by another delimiter line; without a complete
block the whole input is content with empty data. -/
def grayMatter (raw : String) : GmResult :=
  match jsSplitLines raw with
  | [] => { data := [], content := raw }
  | first :: rest =>
    if first = "---" then
      match splitAtDelim rest with
      | some (fmLines, bodyLines) =>
        { data := fmLines.filterMap yamlLineKV, content := joinLines bodyLines }
      | none => { data := [], content := raw }
    else { data := [], content := raw }

/-- A line is a markdown heading when one to six leading hash marks
are followed by a whitespace character, the source's heading regex. -/
def isHeadingLine (l : String) : Bool :=
  let hs := l.data.takeWhile (· = '#')
  decide (1 ≤ hs.length) && decide (hs.length ≤ 6) &&
    (match l.data.drop hs.length with
     | c :: _ => isJsWs c
     | [] => false)

/-- Strip the heading marker and following whitespace run, then trim,
the source's replace followed by trim. -/
def stripHeadingMarker (l : String) : String :=
  jsTrim (String.mk ((l.data.dropWhile (· = '#')).dropWhile isJsWs))

/-- Embedding of extractHeadings from src/docs/parse.ts. -/
def extractHeadings (content : String) : List String :=
  ((jsSplitLines content).filter isHeadingLine).map stripHeadingMarker

/-- The front-matter title when present and a string, the typeof
check in src/docs/parse.ts. -/
def fmStringTitle (g : GmResult) : Option String :=
  match g.data.lookup "title" with
  | some (.str s) => some s
  | _ => none

/-- Modelled from Node path.relative restricted to a target lying
under the base directory, the only case discovery produces. -/
def pathRelative (fromDir toPath : String) : String :=
  if (fromDir ++ "/").data.isPrefixOf toPath.data then
    String.mk (toPath.data.drop (fromDir.data.length + 1))
  else toPath

/-- A character other than the path separator. -/
def notSlash (c : Char) : Bool :=
  if c = '/' then false else true

/-- Modelled from Node path.basename with the md extension argument:
the last slash-separated segment, with the extension dropped when the
segment is longer than the extension itself. -/
def basenameDropMd (p : String) : String :=
  let base := (p.data.reverse.takeWhile notSlash).reverse
  if ['.', 'm', 'd'].isSuffixOf base ∧ 3 < base.length then
    String.mk (base.take (base.length - 3))
  else String.mk base

/-- Embedding of parseMarkdownFile from src/docs/parse.ts: read the
file, split front matter from body, extract headings, resolve the
title through the front-matter field, the first heading and the
filename, and assemble the page record. A failing readFileSync or
statSync aborts the parse, as the host exception does. -/
def parseMarkdownFile (fsys : Fs) (filePath : String) (docsDir : String) :
    Except FsError PageMeta :=
  match fsys.readFileSync filePath with
  | .error e => .error e
  | .ok raw =>
    match fsys.statSync filePath with
    | .error e => .error e
    | .ok stat =>
      let relativePath := pathRelative docsDir filePath
      let uri := toUri relativePath
      let parsed := grayMatter raw
      let body := jsTrim parsed.content
      let headings := extractHeadings body
      let title := ((fmStringTitle parsed).or headings.head?).getD
        (basenameDropMd filePath)
      .ok
        { uri := uri, title := title, relativePath := relativePath,
          headings := headings, checksum := sha256 raw,
          lastModified := stat.mtimeMs }

/-- Modelled from Node path.join for a directory and an entry name as
walk uses it. -/
def pathJoin (dir name : String) : String :=
  dir ++ "/" ++ name

/-- Does the string end with the md suffix, JavaScript endsWith. -/
def endsWithMd (name : String) : Bool :=
  ['.', 'm', 'd'].isSuffixOf name.data

/-- Embedding of walk from src/docs/discover.ts: traverse entries in
readdir order, recursing into directories and collecting files whose
name ends in the md suffix. -/
def walkEntries (dir : String) : List (String × FsNode) → List String
  | [] => []
  | (name, FsNode.dir sub) :: rest =>
    walkEntries (pathJoin dir name) sub ++ walkEntries dir rest
  | (name, FsNode.file _ _) :: rest =>
    (if endsWithMd name then [pathJoin dir name] else []) ++ walkEntries dir rest

/-- Embedding of discoverMarkdownFiles from src/docs/discover.ts: an
absent root yields the empty list, otherwise the walked files sorted
with the default lexicographic comparator; a readdirSync failure
anywhere in the walk propagates. -/
def discoverMarkdownFiles (fsys : Fs) (docsDir : String) :
    Except FsError (List String) :=
  if fsys.existsSync docsDir = false then .ok []
  else (fsys.readdirTree docsDir).map
    (fun entries => (walkEntries docsDir entries).mergeSort
      (fun a b => decide (a ≤ b)))

/-- Runtime configuration subset the core consumes, from
src/config.ts. -/
structure AppConfig where
  repoUrl : String
  repoBranch : String
  cacheDir : String
  repoDir : String
  docsDir : String
  topK : Nat
  deriving DecidableEq, Repr

/-- Result of synchronizing the docs repository, from
src/docs/sync.ts. -/
structure SyncResult where
  commit : String
  changed : Bool
  deriving DecidableEq, Repr

/-- Failure of the external repository synchronization. -/
structure SyncError where
  message : String
  deriving DecidableEq, Repr

/-- The process-wide mutable index state of src/index.ts, threaded
explicitly. -/
structure IndexState where
  lastSyncAt : String
  commit : String
  pages : List PageMeta
  docsDirResolved : String
  discoveryWarnings : List String
  deriving DecidableEq, Repr

/-- Embedding of resolveDocsDir from src/index.ts: report the
configured docs directory, with a warning when it does not exist. -/
def resolveDocsDir (cfg : AppConfig) (fsys : Fs) : String × List String :=
  if fsys.existsSync cfg.docsDir = false then
    (cfg.docsDir, ["Docs directory not found: " ++ cfg.docsDir])
  else (cfg.docsDir, [])

/-- Failure of a refresh: the propagated sync error, or a filesystem
error thrown during discovery or parsing. -/
inductive RefreshError where
  | sync (e : SyncError)
  | fsys (e : FsError)
  deriving DecidableEq, Repr

/-- Embedding of refreshDocs from src/index.ts as a state transition:
the sync result is the outcome of the awaited syncDocsRepo call, and
now is the completion timestamp. A sync failure propagates before any
assignment, leaving the previous state untouched. On a successful
sync the commit, docs directory and warnings are assigned in source
order; a filesystem error thrown afterwards by discovery or by the
parse of one file aborts the refresh at that point, so those earlier
assignments persist while pages and the timestamp keep their previous
values, exactly as an exception leaves the source's module state. -/
def refreshDocs (cfg : AppConfig) (fsys : Fs)
    (syncRes : Except SyncError SyncResult) (now : String)
    (st : IndexState) : Except RefreshError Unit × IndexState :=
  match syncRes with
  | .error e => (.error (.sync e), st)
  | .ok sync =>
    let st1 := { st with commit := sync.commit }
    let dw := resolveDocsDir cfg fsys
    let st2 := { st1 with docsDirResolved := dw.1, discoveryWarnings := dw.2 }
    match discoverMarkdownFiles fsys st2.docsDirResolved with
    | .error e => (.error (.fsys e), st2)
    | .ok files =>
      match files.mapM (fun f => parseMarkdownFile fsys f st2.docsDirResolved) with
      | .error e => (.error (.fsys e), st2)
      | .ok newPages =>
        let st3 := { st2 with pages := newPages }
        let st4 :=
          if files.length = 0 then
            { st3 with discoveryWarnings := st3.discoveryWarnings ++
                ["No markdown pages found under: " ++ st3.docsDirResolved] }
          else st3
        (.ok (), { st4 with lastSyncAt := now })

/-- One reduced entry of the list_docs payload. -/
structure ListEntry where
  uri : String
  title : String
  relativePath : String
  headings : List String
  deriving DecidableEq, Repr

/-- One folder group of the list_docs payload. -/
structure Group where
  folder : String
  count : Nat
  pages : List ListEntry
  deriving DecidableEq, Repr

/-- The list_docs payload, the JSON object the tool serializes. -/
structure ListResult where
  query : Option String
  total : Nat
  offset : Nat
  limit : Nat
  count : Nat
  results : List ListEntry
  groups : List Group
  deriving DecidableEq, Repr

/-- Reduce a page to the entry shape list_docs returns, headings
capped at eight. -/
def reduceEntry (p : PageMeta) : ListEntry :=
  { uri := p.uri, title := p.title, relativePath := p.relativePath,
    headings := p.headings.take 8 }

/-- The effective query the filter closure captures: the optional
chain of toLowerCase and trim over the provided query. -/
def effQuery (query : Option String) : Option String :=
  query.map (fun w => jsTrim (jsToLower w))

/-- The filter body for one page against a nonempty effective query:
lowercased title, relative path or any lowercased heading contains
the query. -/
def pageMatches (q : String) (page : PageMeta) : Bool :=
  jsIncludes (jsToLower page.title) q ||
  jsIncludes (jsToLower page.relativePath) q ||
  page.headings.any (fun h => jsIncludes (jsToLower h) q)

/-- Embedding of the filter step of list_docs: every page passes when
the effective query is missing or empty, the falsiness check of the
source. -/
def listFiltered (pages : List PageMeta) (query : Option String) : List PageMeta :=
  pages.filter (fun page =>
    match effQuery query with
    | none => true
    | some q => if q = "" then true else pageMatches q page)

/-- Modelled from Node path.posix.dirname for the relative paths the
index holds: the part before the last slash, a dot when there is no
slash. -/
def posixDirname (p : String) : String :=
  match (p.data.reverse.dropWhile (fun c => c ≠ '/')) with
  | [] => "."
  | [_] => "/"
  | _ :: restRev => String.mk restRev.reverse

/-- The group key of a page: the posix dirname of its
forward-slash-normalized relative path, with dot mapped to the root
folder marker. -/
def groupKey (relativePath : String) : String :=
  let folder := posixDirname
    (String.mk (relativePath.data.map (fun c => if c = '\\' then '/' else c)))
  if folder = "." then "/" else folder

/-- Insert one entry into the insertion-ordered group map, the Map
get-push-set sequence of the source. -/
def addToGroup (m : List (String × List ListEntry)) (k : String)
    (e : ListEntry) : List (String × List ListEntry) :=
  match m with
  | [] => [(k, [e])]
  | (k', es) :: rest =>
    if k' = k then (k', es ++ [e]) :: rest
    else (k', es) :: addToGroup rest k e

/-- Build the insertion-ordered group map over a list of keyed
entries. -/
def buildGroupMap (entries : List (String × ListEntry)) :
    List (String × List ListEntry) :=
  entries.foldl (fun m ke => addToGroup m ke.1 ke.2) []

/-- Embedding of the list_docs tool body from src/index.ts: filter,
paginate with the default page size, and group the full filtered set
by parent folder, groups sorted by folder and group pages by relative
path (localeCompare modelled as lexicographic order). -/
def listDocs (pages : List PageMeta) (query : Option String)
    (limit offset : Option Nat) (topK : Nat) : ListResult :=
  let filtered := listFiltered pages query
  let start := offset.getD 0
  let size := limit.getD topK
  let results := ((filtered.drop start).take size).map reduceEntry
  let gm := buildGroupMap
    (filtered.map (fun page => (groupKey page.relativePath, reduceEntry page)))
  let groups := (gm.mergeSort (fun a b => decide (a.1 ≤ b.1))).map fun kv =>
    { folder := kv.1, count := kv.2.length,
      pages := kv.2.mergeSort
        (fun a b => decide (a.relativePath ≤ b.relativePath)) }
  { query := query, total := filtered.length, offset := start, limit := size,
    count := results.length, results := results, groups := groups }

/-- Modelled from the claim's filter predicate exactly as written:
the lowercased query with no trimming must occur in the lowercased
title, relative path or one of the lowercased headings. -/
def claimQueryMatches (query : String) (page : PageMeta) : Bool :=
  jsIncludes (jsToLower page.title) (jsToLower query) ||
  jsIncludes (jsToLower page.relativePath) (jsToLower query) ||
  page.headings.any (fun h => jsIncludes (jsToLower h) (jsToLower query))

/-- A one-page index whose title is the word api, used to separate the
code's trimmed filter from the claim's untrimmed one. -/
def apiPage : PageMeta :=
  { uri := "feathers-doc://docs/api.md", title := "api",
    relativePath := "api.md", headings := [], checksum := "c",
    lastModified := 0 }

/-- Filesystem snapshot whose single page carries an explicitly empty
front-matter title string. -/
def fsEmptyTitle : Fs :=
  { existsSync := fun _ => true,
    readFileSync := fun _ => .ok "---\ntitle: \"\"\n---\n# Intro\nbody",
    statSync := fun _ => .ok { mtimeMs := 0 },
    readdirTree := fun _ => .ok [] }

/-- C1: the uri whose decoded relative path climbs out of the docs
root into a sibling directory whose name extends the root as a plain
string passes the startsWith containment check, so resolution
succeeds on a path that does not lie within the docs root, against
the claim that every such uri fails with the traversal error. -/
theorem c1_sibling_escape_accepted :
    resolveDocFilePath "/root/docs" "feathers-doc://docs/../docs-evil/secret.md"
        = .ok "/root/docs-evil/secret.md"
    ∧ liesWithin "/root/docs" "/root/docs-evil/secret.md" = false := by
  constructor
  · rfl
  · rfl

/-- C3 counterexample: a relative path containing a percent escape
does not round-trip, because encoding leaves the percent sign alone
while decoding percent-decodes it, so the resolved path differs from
the absolute path of the file. -/
theorem c3_percent_roundtrip_fails :
    resolveDocFilePath "/r/docs" (toUri "a%41.md") = .ok "/r/docs/aA.md"
    ∧ ("/r/docs/aA.md" : String) ≠ "/r/docs" ++ "/" ++ "a%41.md" := by
  constructor
  · rfl
  · decide

/-- The index state refreshDocs has built once the commit, docs
directory and warnings are assigned, before pages and the timestamp. -/
def midRefreshState (cfg : AppConfig) (fsys : Fs) (sync : SyncResult)
    (st : IndexState) : IndexState :=
  { st with
    commit := sync.commit,
    docsDirResolved := (resolveDocsDir cfg fsys).1,
    discoveryWarnings := (resolveDocsDir cfg fsys).2 }

/-- The index state a fully successful refreshDocs leaves. -/
def doneRefreshState (cfg : AppConfig) (fsys : Fs) (sync : SyncResult)
    (now : String) (st : IndexState) (files : List String)
    (newPages : List PageMeta) : IndexState :=
  { st with
    commit := sync.commit,
    docsDirResolved := (resolveDocsDir cfg fsys).1,
    discoveryWarnings :=
      if files.length = 0 then
        (resolveDocsDir cfg fsys).2 ++
          ["No markdown pages found under: " ++ (resolveDocsDir cfg fsys).1]
      else (resolveDocsDir cfg fsys).2,
    pages := newPages, lastSyncAt := now }

theorem refreshDocs_ok_eq (cfg : AppConfig) (fsys : Fs) (sync : SyncResult)
    (now : String) (st : IndexState) :
    refreshDocs cfg fsys (.ok sync) now st
      = match discoverMarkdownFiles fsys (resolveDocsDir cfg fsys).1 with
        | .error e => (.error (.fsys e), midRefreshState cfg fsys sync st)
        | .ok files =>
          match files.mapM
              (fun f => parseMarkdownFile fsys f (resolveDocsDir cfg fsys).1) with
          | .error e => (.error (.fsys e), midRefreshState cfg fsys sync st)
          | .ok newPages =>
            (.ok (), doneRefreshState cfg fsys sync now st files newPages) := by
  simp only [refreshDocs]
  unfold midRefreshState doneRefreshState
  split
  · rfl
  · split
    · rfl
    · split <;> rfl

/-- C4: every refresh performed with a successful sync stores the
commit returned by the sync call in the index, and every refresh that
completes successfully stamps lastSyncAt with the completion time. -/
theorem c4_refresh_stores_commit (cfg : AppConfig) (fsys : Fs)
    (sync : SyncResult) (now : String) (st : IndexState) :
    (refreshDocs cfg fsys (.ok sync) now st).2.commit = sync.commit
    ∧ ((refreshDocs cfg fsys (.ok sync) now st).1 = .ok () →
        (refreshDocs cfg fsys (.ok sync) now st).2.lastSyncAt = now) := by
  rw [refreshDocs_ok_eq]
  split
  · exact ⟨rfl, fun h => absurd h (by simp)⟩
  · split
    · exact ⟨rfl, fun h => absurd h (by simp)⟩
    · exact ⟨rfl, fun _ => rfl⟩

/-- C5 amended: a refresh whose repository synchronization fails
propagates the sync error and returns the previous index state
unchanged in every field; a refresh that fails after a successful
sync, when a filesystem call throws during discovery or parsing,
leaves the half-built state in which commit, docsDirResolved and
discoveryWarnings are already reassigned while pages and lastSyncAt
keep their previous values. -/
theorem c5_refresh_failure_behavior (cfg : AppConfig) (fsys : Fs)
    (e : SyncError) (ef : RefreshError) (sync : SyncResult) (now : String)
    (st : IndexState) :
    refreshDocs cfg fsys (.error e) now st = (.error (.sync e), st)
    ∧ ((refreshDocs cfg fsys (.ok sync) now st).1 = .error ef →
        (refreshDocs cfg fsys (.ok sync) now st).2.pages = st.pages
        ∧ (refreshDocs cfg fsys (.ok sync) now st).2.lastSyncAt = st.lastSyncAt
        ∧ (refreshDocs cfg fsys (.ok sync) now st).2.commit = sync.commit
        ∧ (refreshDocs cfg fsys (.ok sync) now st).2.docsDirResolved
            = (resolveDocsDir cfg fsys).1
        ∧ (refreshDocs cfg fsys (.ok sync) now st).2.discoveryWarnings
            = (resolveDocsDir cfg fsys).2) := by
  constructor
  · rfl
  · rw [refreshDocs_ok_eq]
    split
    · exact fun _ => ⟨rfl, rfl, rfl, rfl, rfl⟩
    · split
      · exact fun _ => ⟨rfl, rfl, rfl, rfl, rfl⟩
      · intro h
        exact absurd h (by simp)

/-- Filesystem snapshot whose docs root exists but whose recursive
listing throws, the readdirSync failure mid-walk. -/
def fsThrowing : Fs :=
  { existsSync := fun _ => true,
    readFileSync := fun _ => .error { message := "EACCES" },
    statSync := fun _ => .error { message := "EACCES" },
    readdirTree := fun _ => .error { message := "EACCES" } }

/-- Configuration used by the C5 counterexample. -/
def cfgC5 : AppConfig :=
  { repoUrl := "u", repoBranch := "b", cacheDir := "c", repoDir := "r",
    docsDir := "/d", topK := 6 }

/-- Previous index state used by the C5 counterexample. -/
def stC5 : IndexState :=
  { lastSyncAt := "t0", commit := "old", pages := [apiPage],
    docsDirResolved := "/d", discoveryWarnings := ["w0"] }

/-- C5 counterexample: a refresh whose sync succeeds but whose
directory listing throws ends in a half-built state, with the commit
reassigned while pages and lastSyncAt keep their previous values,
against the claim that a failed refresh never leaves the state
half-built. -/
theorem c5_late_failure_half_built :
    (refreshDocs cfgC5 fsThrowing (.ok { commit := "new", changed := true })
        "t1" stC5).1 = .error (.fsys { message := "EACCES" })
    ∧ (refreshDocs cfgC5 fsThrowing (.ok { commit := "new", changed := true })
        "t1" stC5).2.commit = "new"
    ∧ (refreshDocs cfgC5 fsThrowing (.ok { commit := "new", changed := true })
        "t1" stC5).2.commit ≠ stC5.commit
    ∧ (refreshDocs cfgC5 fsThrowing (.ok { commit := "new", changed := true })
        "t1" stC5).2.lastSyncAt = stC5.lastSyncAt
    ∧ (refreshDocs cfgC5 fsThrowing (.ok { commit := "new", changed := true })
        "t1" stC5).2.pages = stC5.pages := by
  refine ⟨rfl, rfl, by decide, rfl, rfl⟩

/-- C6: the pagination law of list_docs: results are the slice of the
filtered set from offset of length limit, count is the truncated
minimum, and count vanishes once the offset reaches the total. -/
theorem c6_pagination_law (pages : List PageMeta) (query : Option String)
    (limit offset : Option Nat) (topK : Nat) :
    (listDocs pages query limit offset topK).results
        = (((listFiltered pages query).drop (offset.getD 0)).take
            (limit.getD topK)).map reduceEntry
    ∧ (listDocs pages query limit offset topK).count
        = min (limit.getD topK)
            ((listFiltered pages query).length - offset.getD 0)
    ∧ ((listFiltered pages query).length ≤ offset.getD 0 →
        (listDocs pages query limit offset topK).count = 0) := by
  refine ⟨rfl, ?_, ?_⟩
  · simp [listDocs, Nat.min_comm]
  · intro h
    simp [listDocs, List.drop_eq_nil_of_le h]

/-- C7 counterexample: a page whose front matter carries an explicitly
empty title string parses to an empty title, against the claim that
every parsed title is non-empty. -/
theorem c7_empty_frontmatter_title :
    (parseMarkdownFile fsEmptyTitle "/d/a.md" "/d").map PageMeta.title
      = .ok "" := rfl

/-- C9 counterexample: with the query api followed by a space, the
code's filter trims and keeps the api page, while the claim's
untrimmed substring predicate rejects it. -/
theorem c9_untrimmed_query_differs :
    listFiltered [apiPage] (some "api ") = [apiPage]
    ∧ [apiPage].filter (claimQueryMatches "api ") = [] := by
  constructor
  · rfl
  · rfl

/-- C10 counterexample: a whitespace-only query does not return the
identical payload as no query at all, because the payload echoes the
query argument verbatim. -/
theorem c10_query_echo_differs :
    listDocs [] (some " ") none none 6 ≠ listDocs [] none none none 6 := by
  decide

theorem addToGroup_sumLen (m : List (String × List ListEntry)) (k : String)
    (e : ListEntry) :
    ((addToGroup m k e).map (fun kv => kv.2.length)).sum
      = ((m.map (fun kv => kv.2.length)).sum) + 1 := by
  induction m with
  | nil => simp [addToGroup]
  | cons hd tl ih =>
    obtain ⟨k', es⟩ := hd
    by_cases h : k' = k
    · simp [addToGroup, h]
      omega
    · simp [addToGroup, h, ih]
      omega

theorem buildGroupMap_sumLen_aux (l : List (String × ListEntry)) :
    ∀ m, (((l.foldl (fun m ke => addToGroup m ke.1 ke.2) m)).map
        (fun kv => kv.2.length)).sum
      = ((m.map (fun kv => kv.2.length)).sum) + l.length := by
  induction l with
  | nil => simp
  | cons hd tl ih =>
    intro m
    simp only [List.foldl_cons, ih, addToGroup_sumLen, List.length_cons]
    omega

theorem buildGroupMap_sumLen (l : List (String × ListEntry)) :
    ((buildGroupMap l).map (fun kv => kv.2.length)).sum = l.length := by
  simpa using buildGroupMap_sumLen_aux l []

theorem sum_map_count_perm {l l' : List (String × List ListEntry)}
    (h : l.Perm l') (mk : (String × List ListEntry) → Group)
    (hmk : ∀ kv, (mk kv).count = kv.2.length) :
    ((l.map mk).map Group.count).sum = (l'.map (fun kv => kv.2.length)).sum := by
  rw [List.map_map]
  have hc : Group.count ∘ mk = fun kv => kv.2.length := funext hmk
  rw [hc]
  exact (h.map _).sum_eq

/-- C2: the groups of every list_docs payload partition the whole
filtered set: the group counts sum to the total, and the groups are
unchanged by the limit and offset arguments. -/
theorem c2_groups_partition_total (pages : List PageMeta)
    (query : Option String) (l1 o1 l2 o2 : Option Nat) (topK : Nat) :
    ((listDocs pages query l1 o1 topK).groups.map Group.count).sum
        = (listDocs pages query l1 o1 topK).total
    ∧ (listDocs pages query l1 o1 topK).groups
        = (listDocs pages query l2 o2 topK).groups := by
  constructor
  · calc ((listDocs pages query l1 o1 topK).groups.map Group.count).sum
        = ((buildGroupMap ((listFiltered pages query).map
            (fun page => (groupKey page.relativePath, reduceEntry page)))).map
              (fun kv => kv.2.length)).sum :=
          sum_map_count_perm (List.mergeSort_perm _ _) _ (fun _ => rfl)
      _ = ((listFiltered pages query).map
            (fun page => (groupKey page.relativePath, reduceEntry page))).length :=
          buildGroupMap_sumLen _
      _ = (listDocs pages query l1 o1 topK).total := List.length_map _ _
  · rfl

theorem charToNat_ofNat {n : Nat} (h : Nat.isValidChar n) :
    (Char.ofNat n).toNat = n := by
  simp [Char.ofNat, h]
  rfl

theorem char_le_iff_toNat {a b : Char} : a ≤ b ↔ a.toNat ≤ b.toNat := by
  simp [Char.le_def, Char.toNat, UInt32.le_def]
  exact ge_iff_le

theorem isJsWs_le_32 {c : Char} (h : isJsWs c = true) : c.toNat ≤ 32 := by
  simp only [isJsWs, Bool.or_eq_true, decide_eq_true_eq] at h
  rcases h with ((((h | h) | h) | h) | h) | h <;> subst h <;> decide

theorem isJsWs_jsLowerChar (c : Char) : isJsWs (jsLowerChar c) = isJsWs c := by
  unfold jsLowerChar
  split
  case isTrue h =>
    have hc : 65 ≤ c.toNat := char_le_iff_toNat.mp h.1
    have hv : Nat.isValidChar (c.toNat + 32) := by
      left
      have := char_le_iff_toNat.mp h.2
      simp only [show ('Z').toNat = 90 from rfl] at this
      omega
    have ht : (Char.ofNat (c.toNat + 32)).toNat = c.toNat + 32 := charToNat_ofNat hv
    have h1 : isJsWs (Char.ofNat (c.toNat + 32)) = false := by
      by_contra hx
      have hx' : isJsWs (Char.ofNat (c.toNat + 32)) = true := by
        revert hx
        cases isJsWs (Char.ofNat (c.toNat + 32)) <;> simp
      have := isJsWs_le_32 hx'
      simp only [show ('A').toNat = 65 from rfl] at hc
      omega
    have h2 : isJsWs c = false := by
      by_contra hx
      have hx' : isJsWs c = true := by
        revert hx
        cases isJsWs c <;> simp
      have := isJsWs_le_32 hx'
      simp only [show ('A').toNat = 65 from rfl] at hc
      omega
    rw [h1, h2]
  case isFalse h => rfl

theorem jsToLower_trim_comm (s : String) :
    jsTrim (jsToLower s) = jsToLower (jsTrim s) := by
  have hwf : isJsWs ∘ jsLowerChar = isJsWs := funext isJsWs_jsLowerChar
  show String.mk _ = String.mk _
  apply congrArg
  show (((s.data.map jsLowerChar).dropWhile isJsWs).reverse.dropWhile
      isJsWs).reverse
    = (((s.data.dropWhile isJsWs).reverse.dropWhile isJsWs).reverse).map
        jsLowerChar
  rw [List.dropWhile_map, hwf, ← List.map_reverse, List.dropWhile_map, hwf,
    ← List.map_reverse]

theorem dropWhile_rdropWhile_of_dropped (x : List Char)
    (hx : x.dropWhile isJsWs = x) :
    (List.rdropWhile isJsWs x).dropWhile isJsWs = List.rdropWhile isJsWs x := by
  cases h : List.rdropWhile isJsWs x with
  | nil => simp
  | cons a t =>
    have hpre : a :: t <+: x := h ▸ List.rdropWhile_prefix isJsWs x
    obtain ⟨r, hr⟩ := hpre
    have ha : isJsWs a = false := by
      by_contra hcon
      have ha' : isJsWs a = true := by
        revert hcon
        cases isJsWs a <;> simp
      have hlen : (x.dropWhile isJsWs).length ≤ (t ++ r).length := by
        rw [← hr]
        simp only [List.cons_append, List.dropWhile_cons, ha', if_pos rfl]
        exact (List.dropWhile_suffix _).sublist.length_le
      rw [hx, ← hr] at hlen
      simp at hlen
    simp [List.dropWhile_cons, ha]

theorem jsTrim_as_rdropWhile (s : String) :
    jsTrim s = String.mk (List.rdropWhile isJsWs (s.data.dropWhile isJsWs)) := rfl

theorem jsTrim_idem (s : String) : jsTrim (jsTrim s) = jsTrim s := by
  rw [jsTrim_as_rdropWhile s, jsTrim_as_rdropWhile]
  show String.mk (List.rdropWhile isJsWs
      ((List.rdropWhile isJsWs (s.data.dropWhile isJsWs)).dropWhile isJsWs)) = _
  rw [dropWhile_rdropWhile_of_dropped _ (List.dropWhile_idempotent _ _),
    List.rdropWhile_idempotent]

theorem effQuery_trim (w : String) :
    jsTrim (jsToLower (jsTrim w)) = jsTrim (jsToLower w) := by
  rw [← jsToLower_trim_comm w, jsTrim_idem]

theorem listFiltered_some (pages : List PageMeta) (w : String) :
    listFiltered pages (some w) = pages.filter (fun page =>
      if jsTrim (jsToLower w) = "" then true
      else pageMatches (jsTrim (jsToLower w)) page) := rfl

theorem listFiltered_trim (pages : List PageMeta) (w : String) :
    listFiltered pages (some w) = listFiltered pages (some (jsTrim w)) := by
  rw [listFiltered_some, listFiltered_some, effQuery_trim]

theorem listDocs_query_congr (pages : List PageMeta) (q1 q2 : Option String)
    (limit offset : Option Nat) (topK : Nat)
    (h : listFiltered pages q1 = listFiltered pages q2) :
    listDocs pages q1 limit offset topK
      = { listDocs pages q2 limit offset topK with query := q1 } := by
  unfold listDocs
  rw [h]

/-- C9 amended: the filter of list_docs keeps exactly the pages whose
lowercased title, relative path or some lowercased heading contains
the lowercased and trimmed query, with an empty effective query
matching everything; no query matches everything, and index order is
preserved. -/
theorem c9_filter_characterization (pages : List PageMeta) (query : String)
    (page : PageMeta) :
    (page ∈ listFiltered pages (some query) ↔
      page ∈ pages ∧ (jsTrim (jsToLower query) = "" ∨
        pageMatches (jsTrim (jsToLower query)) page = true))
    ∧ listFiltered pages none = pages
    ∧ (listFiltered pages (some query)).Sublist pages := by
  refine ⟨?_, ?_, List.filter_sublist _⟩
  · by_cases h : jsTrim (jsToLower query) = ""
    · simp [listFiltered, effQuery, List.mem_filter, h]
    · simp [listFiltered, effQuery, List.mem_filter, h]
  · exact List.filter_true pages

/-- C10 amended: list_docs treats a query as its trimmed form, and a
whitespace-only query yields the same payload as no query at all,
except that the payload echoes the original query argument. -/
theorem c10_trim_equiv (pages : List PageMeta) (w : String)
    (limit offset : Option Nat) (topK : Nat) :
    (listDocs pages (some w) limit offset topK
        = { listDocs pages (some (jsTrim w)) limit offset topK with
              query := some w })
    ∧ (w.data.all isJsWs = true →
        listDocs pages (some w) limit offset topK
          = { listDocs pages none limit offset topK with query := some w }) := by
  constructor
  · exact listDocs_query_congr pages (some w) (some (jsTrim w)) limit offset topK
      (listFiltered_trim pages w)
  · intro hws
    apply listDocs_query_congr
    have hq : jsTrim (jsToLower w) = "" := by
      have hall : ∀ c ∈ w.data.map jsLowerChar, isJsWs c = true := by
        intro c hc
        obtain ⟨d, hd, rfl⟩ := List.mem_map.mp hc
        rw [isJsWs_jsLowerChar]
        exact List.all_eq_true.mp hws d hd
      rw [jsTrim_as_rdropWhile]
      have hnil : (jsToLower w).data.dropWhile isJsWs = [] :=
        List.dropWhile_eq_nil_iff.mpr (fun c hc => hall c hc)
      rw [hnil]
      rfl
    have h1 : listFiltered pages (some w) = pages := by
      simp [listFiltered, effQuery, hq]
    have h2 : listFiltered pages none = pages := List.filter_true pages
    rw [h1, h2]

theorem basenameDropMd_ne_empty (p : String) (h : endsWithMd p = true) :
    basenameDropMd p ≠ "" := by
  unfold endsWithMd at h
  obtain ⟨pre, hpre⟩ := List.isSuffixOf_iff_suffix.mp h
  unfold basenameDropMd
  have hrev : p.data.reverse = 'd' :: 'm' :: '.' :: pre.reverse := by
    rw [← hpre]
    simp
  rw [hrev]
  have h1 : List.takeWhile notSlash ('d' :: 'm' :: '.' :: pre.reverse)
      = 'd' :: 'm' :: '.' :: List.takeWhile notSlash pre.reverse := rfl
  rw [h1]
  by_cases htl : List.takeWhile notSlash pre.reverse = []
  · rw [htl]
    intro hcon
    have := congrArg String.data hcon
    revert this
    decide
  · have hlen : 0 < (List.takeWhile notSlash pre.reverse).length :=
      List.length_pos.mpr htl
    have hbase : ('d' :: 'm' :: '.' :: List.takeWhile notSlash pre.reverse).reverse
        = (List.takeWhile notSlash pre.reverse).reverse ++ ['.', 'm', 'd'] := by
      simp
    rw [hbase]
    have hsuf : (['.', 'm', 'd'] : List Char).isSuffixOf
        ((List.takeWhile notSlash pre.reverse).reverse ++ ['.', 'm', 'd']) = true :=
      List.isSuffixOf_iff_suffix.mpr (List.suffix_append _ _)
    have hlarger : 3 <
        ((List.takeWhile notSlash pre.reverse).reverse ++ ['.', 'm', 'd']).length := by
      simp
      omega
    rw [if_pos ⟨hsuf, hlarger⟩]
    intro hcon
    have hd : ((List.takeWhile notSlash pre.reverse).reverse ++
        ['.', 'm', 'd']).take
          (((List.takeWhile notSlash pre.reverse).reverse ++
            ['.', 'm', 'd']).length - 3)
        = ([] : List Char) := congrArg String.data hcon
    have hlt := congrArg List.length hd
    rw [List.length_take] at hlt
    have hlen2 : ((List.takeWhile notSlash pre.reverse).reverse ++
        ['.', 'm', 'd']).length
        = (List.takeWhile notSlash pre.reverse).length + 3 := by
      simp
    rw [hlen2] at hlt
    simp only [List.length_nil] at hlt
    omega

/-- The title expression of parseMarkdownFile from src/docs/parse.ts,
named so the resolution-order statements can speak about it: the
front-matter title when present and a string, else the first
extracted heading, else the filename with the md suffix stripped. -/
def resolvedTitle (raw filePath : String) : String :=
  ((fmStringTitle (grayMatter raw)).or
    (extractHeadings (jsTrim (grayMatter raw).content)).head?).getD
    (basenameDropMd filePath)

/-- Raw content of the concrete API page used by the C7 witness. -/
def apiRaw : String := "---\ntitle: API\n---\n## Overview\ntext"

/-- Filesystem snapshot with a page whose front matter carries the
title API and whose body carries one heading. -/
def fsApiDoc : Fs :=
  { existsSync := fun _ => true,
    readFileSync := fun _ => .ok apiRaw,
    statSync := fun _ => .ok { mtimeMs := 0 },
    readdirTree := fun _ => .ok [] }

/-- C7 amended: for every page whose read and stat succeed, the parse
succeeds and its title is the resolution chain of the source, which
unconditionally takes the front-matter title field when present and a
string, else the first extracted heading, else the filename with the
md suffix stripped. An explicitly empty front-matter title, or an
empty first heading used as fallback, yields an empty page title; the
title is non-empty provided the front-matter title string, when
present, is non-empty and, when the heading fallback is used, the
first heading is non-empty. -/
theorem c7_title_resolution (fsys : Fs) (filePath docsDir raw : String)
    (stat : FileStat)
    (hraw : fsys.readFileSync filePath = .ok raw)
    (hstat : fsys.statSync filePath = .ok stat) :
    (parseMarkdownFile fsys filePath docsDir).map PageMeta.title
        = .ok (resolvedTitle raw filePath)
    ∧ (∀ t, fmStringTitle (grayMatter raw) = some t →
        resolvedTitle raw filePath = t)
    ∧ (fmStringTitle (grayMatter raw) = none →
        resolvedTitle raw filePath
          = (extractHeadings (jsTrim (grayMatter raw).content)).headD
              (basenameDropMd filePath))
    ∧ (fmStringTitle (grayMatter raw) = some "" →
        resolvedTitle raw filePath = "")
    ∧ (fmStringTitle (grayMatter raw) = none →
        (extractHeadings (jsTrim (grayMatter raw).content)).head? = some "" →
        resolvedTitle raw filePath = "")
    ∧ (endsWithMd filePath = true →
        fmStringTitle (grayMatter raw) ≠ some "" →
        (fmStringTitle (grayMatter raw) = none →
          (extractHeadings (jsTrim (grayMatter raw).content)).head? ≠ some "") →
        resolvedTitle raw filePath ≠ "") := by
  refine ⟨?_, ?_, ?_, ?_, ?_, ?_⟩
  · simp only [parseMarkdownFile, hraw, hstat]
    rfl
  · intro t ht
    unfold resolvedTitle
    rw [ht]
    rfl
  · intro ht
    unfold resolvedTitle
    rw [ht]
    cases extractHeadings (jsTrim (grayMatter raw).content) <;> rfl
  · intro ht
    unfold resolvedTitle
    rw [ht]
    rfl
  · intro h1 h2
    unfold resolvedTitle
    rw [h1, h2]
    rfl
  · intro hmd hfm hhd
    unfold resolvedTitle
    cases hg : fmStringTitle (grayMatter raw) with
    | some t =>
      rw [Option.or, Option.getD]
      intro hcon
      exact hfm (hg.trans (congrArg some hcon))
    | none =>
      rw [Option.none_or]
      cases hh : (extractHeadings (jsTrim (grayMatter raw).content)).head? with
      | none =>
        rw [Option.getD]
        exact basenameDropMd_ne_empty filePath hmd
      | some a =>
        rw [Option.getD]
        intro hcon
        exact hhd hg (hcon ▸ hh)

/-- C7 witness: on the concrete API page the amended theorem gives a
non-empty title, every hypothesis discharged at the concrete input. -/
theorem c7_title_resolution_witness :
    resolvedTitle apiRaw "/d/api/index.md" ≠ "" :=
  (c7_title_resolution fsApiDoc "/d/api/index.md" "/d" apiRaw { mtimeMs := 0 }
    rfl rfl).2.2.2.2.2 (by decide) (by decide) (by decide)

/-- Modelled from the spec: a full path names a reachable markdown
file of the docs tree when a chain of directory entries leads from the
root listing to a file entry whose name bears the md suffix. -/
inductive ReachesMd : String → List (String × FsNode) → String → Prop where
  | here (dir : String) (entries : List (String × FsNode))
      (name content : String) (t : Int)
      (hmem : (name, FsNode.file content t) ∈ entries)
      (hmd : endsWithMd name = true) : ReachesMd dir entries (pathJoin dir name)
  | deeper (dir : String) (entries : List (String × FsNode)) (name : String)
      (sub : List (String × FsNode)) (p : String)
      (hmem : (name, FsNode.dir sub) ∈ entries)
      (hrec : ReachesMd (pathJoin dir name) sub p) : ReachesMd dir entries p

theorem reachesMd_mono {dir : String} {e : String × FsNode}
    {entries : List (String × FsNode)} {p : String}
    (h : ReachesMd dir entries p) : ReachesMd dir (e :: entries) p := by
  cases h with
  | here _ _ name content t hmem hmd =>
    exact .here _ _ name content t (List.mem_cons_of_mem _ hmem) hmd
  | deeper _ _ name sub p hmem hrec =>
    exact .deeper _ _ name sub p (List.mem_cons_of_mem _ hmem) hrec

theorem walkEntries_mem_iff :
    ∀ (dir : String) (entries : List (String × FsNode)) (p : String),
      p ∈ walkEntries dir entries ↔ ReachesMd dir entries p := by
  intro dir entries
  induction dir, entries using walkEntries.induct with
  | case1 dir =>
    intro p
    simp only [walkEntries, List.not_mem_nil, false_iff]
    intro h
    cases h with
    | here _ _ name content t hmem hmd => exact absurd hmem (List.not_mem_nil _)
    | deeper _ _ name sub p hmem hrec => exact absurd hmem (List.not_mem_nil _)
  | case2 dir name sub rest ih1 ih2 =>
    intro p
    simp only [walkEntries, List.mem_append]
    constructor
    · intro hp
      rcases hp with h | h
      · exact .deeper _ _ name sub p (List.mem_cons_self _ _) ((ih1 p).mp h)
      · exact reachesMd_mono ((ih2 p).mp h)
    · intro hr
      cases hr with
      | here _ _ nm c t hmem hmd =>
        rcases List.mem_cons.mp hmem with he | hm
        · simp at he
        · exact Or.inr ((ih2 _).mpr (.here _ _ nm c t hm hmd))
      | deeper _ _ nm sub' p hmem hrec =>
        rcases List.mem_cons.mp hmem with he | hm
        · have h1 : nm = name := congrArg Prod.fst he
          have h2 : FsNode.dir sub' = FsNode.dir sub := congrArg Prod.snd he
          have h3 : sub' = sub := by injection h2
          subst h1
          subst h3
          exact Or.inl ((ih1 p).mpr hrec)
        · exact Or.inr ((ih2 p).mpr (.deeper _ _ nm sub' p hm hrec))
  | case3 dir name content mtime rest ih =>
    intro p
    simp only [walkEntries, List.mem_append]
    constructor
    · intro hp
      rcases hp with h | h
      · by_cases hmd : endsWithMd name = true
        · rw [if_pos hmd] at h
          have hp' : p = pathJoin dir name := by simpa using h
          subst hp'
          exact .here _ _ name content mtime (List.mem_cons_self _ _) hmd
        · rw [if_neg hmd] at h
          cases h
      · exact reachesMd_mono ((ih p).mp h)
    · intro hr
      cases hr with
      | here _ _ nm c t hmem hmd =>
        rcases List.mem_cons.mp hmem with he | hm
        · have h1 : nm = name := congrArg Prod.fst he
          subst h1
          refine Or.inl ?_
          rw [if_pos hmd]
          exact List.mem_singleton.mpr rfl
        · exact Or.inr ((ih _).mpr (.here _ _ nm c t hm hmd))
      | deeper _ _ nm sub' p hmem hrec =>
        rcases List.mem_cons.mp hmem with he | hm
        · have h2 : FsNode.dir sub' = FsNode.file content mtime :=
            congrArg Prod.snd he
          cases h2
        · exact Or.inr ((ih p).mpr (.deeper _ _ nm sub' p hm hrec))

theorem stringLe_trans (a b c : String) (hab : decide (a ≤ b) = true)
    (hbc : decide (b ≤ c) = true) : decide (a ≤ c) = true :=
  decide_eq_true (le_trans (of_decide_eq_true hab) (of_decide_eq_true hbc))

theorem stringLe_total (a b : String) :
    (decide (a ≤ b) || decide (b ≤ a)) = true := by
  rcases le_total a b with h | h
  · simp [h]
  · simp [h]

/-- C8: discovery on a missing root succeeds with the empty list;
every successful discovery is sorted in lexicographic order of full
path and contains exactly the reachable markdown files of the docs
tree; discovery fails exactly when the root exists and the recursive
listing throws. Determinism holds because the embedding is a pure
function of the filesystem snapshot. -/
theorem c8_discover_sorted_exact (fsys : Fs) (docsDir : String) :
    (fsys.existsSync docsDir = false →
      discoverMarkdownFiles fsys docsDir = .ok [])
    ∧ (∀ l, discoverMarkdownFiles fsys docsDir = .ok l →
        List.Sorted (· ≤ ·) l)
    ∧ (∀ l entries p, fsys.readdirTree docsDir = .ok entries →
        discoverMarkdownFiles fsys docsDir = .ok l →
        (p ∈ l ↔ (fsys.existsSync docsDir = true
          ∧ ReachesMd docsDir entries p)))
    ∧ (∀ e, discoverMarkdownFiles fsys docsDir = .error e ↔
        (fsys.existsSync docsDir = true
          ∧ fsys.readdirTree docsDir = .error e)) := by
  by_cases hex : fsys.existsSync docsDir = false
  · have hd : discoverMarkdownFiles fsys docsDir = .ok [] := by
      simp [discoverMarkdownFiles, hex]
    refine ⟨fun _ => hd, ?_, ?_, ?_⟩
    · intro l hl
      rw [hd] at hl
      injection hl with h
      subst h
      exact List.sorted_nil
    · intro l entries p hre hl
      rw [hd] at hl
      injection hl with h
      subst h
      simp [hex]
    · intro e
      rw [hd]
      simp [hex]
  · have hex' : fsys.existsSync docsDir = true := by
      revert hex
      cases fsys.existsSync docsDir <;> simp
    cases hrd : fsys.readdirTree docsDir with
    | error e0 =>
      have hd : discoverMarkdownFiles fsys docsDir = .error e0 := by
        unfold discoverMarkdownFiles
        rw [if_neg hex, hrd]
        rfl
      refine ⟨?_, ?_, ?_, ?_⟩
      · intro h
        exact absurd h (by simp [hex'])
      · intro l hl
        rw [hd] at hl
        cases hl
      · intro l entries p hre hl
        cases hre
      · intro e
        rw [hd]
        constructor
        · intro he
          injection he with h
          subst h
          exact ⟨hex', rfl⟩
        · rintro ⟨-, h2⟩
          injection h2 with h
          subst h
          rfl
    | ok entries0 =>
      have hd : discoverMarkdownFiles fsys docsDir
          = .ok ((walkEntries docsDir entries0).mergeSort
              (fun a b => decide (a ≤ b))) := by
        unfold discoverMarkdownFiles
        rw [if_neg hex, hrd]
        rfl
      refine ⟨?_, ?_, ?_, ?_⟩
      · intro h
        exact absurd h (by simp [hex'])
      · intro l hl
        rw [hd] at hl
        injection hl with h
        subst h
        have hs := List.sorted_mergeSort stringLe_trans stringLe_total
          (walkEntries docsDir entries0)
        exact hs.imp (fun h => of_decide_eq_true h)
      · intro l entries p hre hl
        injection hre with h
        subst h
        rw [hd] at hl
        injection hl with h
        subst h
        simp [List.mem_mergeSort, walkEntries_mem_iff, hex']
      · intro e
        rw [hd]
        constructor
        · intro he
          cases he
        · rintro ⟨-, h2⟩
          cases h2

/-- A clean path segment as discovery produces them: non-empty, not a
dot or dot-dot segment, and free of slash, percent and backslash
characters. -/
def cleanSeg (s : List Char) : Prop :=
  s ≠ [] ∧ s ≠ ['.'] ∧ s ≠ ['.', '.'] ∧ '/' ∉ s ∧ '%' ∉ s ∧ '\\' ∉ s

instance (s : List Char) : Decidable (cleanSeg s) := by
  unfold cleanSeg
  infer_instance

theorem splitSlash_no_slash (s : List Char) (h : '/' ∉ s) :
    splitSlash s = [s] := by
  induction s with
  | nil => rfl
  | cons c cs ih =>
    have hc : ¬ (c = '/') := fun he => h (he ▸ List.mem_cons_self c cs)
    have hcs : '/' ∉ cs := fun hm => h (List.mem_cons_of_mem _ hm)
    rw [splitSlash, if_neg hc, ih hcs]

theorem splitSlash_append (s t : List Char) (h : '/' ∉ s) :
    splitSlash (s ++ '/' :: t) = s :: splitSlash t := by
  induction s with
  | nil =>
    show splitSlash ('/' :: t) = [] :: splitSlash t
    rw [splitSlash, if_pos rfl]
  | cons c cs ih =>
    have hc : ¬ (c = '/') := fun he => h (he ▸ List.mem_cons_self c cs)
    have hcs : '/' ∉ cs := fun hm => h (List.mem_cons_of_mem _ hm)
    show splitSlash (c :: (cs ++ '/' :: t)) = (c :: cs) :: splitSlash t
    rw [splitSlash, if_neg hc, ih hcs]

theorem splitSlash_joinSlash (S : List (List Char)) (hne : S ≠ [])
    (h : ∀ s ∈ S, '/' ∉ s) : splitSlash (joinSlash S) = S := by
  induction S with
  | nil => exact absurd rfl hne
  | cons s rest ih =>
    cases rest with
    | nil =>
      show splitSlash (joinSlash [s]) = [s]
      exact splitSlash_no_slash s (h s (List.mem_cons_self _ _))
    | cons s2 rest2 =>
      have hj : joinSlash (s :: s2 :: rest2) = s ++ '/' :: joinSlash (s2 :: rest2) := rfl
      rw [hj, splitSlash_append s _ (h s (List.mem_cons_self _ _)),
        ih (by simp) (fun u hu => h u (List.mem_cons_of_mem _ hu))]

theorem joinSlash_append (S P : List (List Char)) (hS : S ≠ []) (hP : P ≠ []) :
    joinSlash (S ++ P) = joinSlash S ++ '/' :: joinSlash P := by
  induction S with
  | nil => exact absurd rfl hS
  | cons s rest ih =>
    cases rest with
    | nil =>
      cases P with
      | nil => exact absurd rfl hP
      | cons p ps =>
        show joinSlash (s :: p :: ps) = joinSlash [s] ++ '/' :: joinSlash (p :: ps)
        rfl
    | cons s2 rest2 =>
      have h1 : joinSlash ((s :: s2 :: rest2) ++ P)
          = s ++ '/' :: joinSlash ((s2 :: rest2) ++ P) := rfl
      have h2 : joinSlash (s :: s2 :: rest2) = s ++ '/' :: joinSlash (s2 :: rest2) := rfl
      rw [h1, h2, ih (by simp)]
      simp

theorem normStack_clean (S : List (List Char))
    (h : ∀ s ∈ S, s ≠ [] ∧ s ≠ ['.'] ∧ s ≠ ['.', '.']) :
    ∀ acc, normStack acc S = acc.reverse ++ S := by
  induction S with
  | nil =>
    intro acc
    simp [normStack]
  | cons s rest ih =>
    intro acc
    obtain ⟨h1, h2, h3⟩ := h s (List.mem_cons_self _ _)
    rw [normStack, if_neg (by simp [h1, h2]), if_neg h3,
      ih (fun u hu => h u (List.mem_cons_of_mem _ hu))]
    simp

theorem joinSlash_mem (S : List (List Char)) (c : Char) (h : c ∈ joinSlash S) :
    c = '/' ∨ ∃ s ∈ S, c ∈ s := by
  induction S with
  | nil => cases h
  | cons s rest ih =>
    cases rest with
    | nil =>
      right
      exact ⟨s, List.mem_cons_self _ _, h⟩
    | cons s2 rest2 =>
      have hj : joinSlash (s :: s2 :: rest2) = s ++ '/' :: joinSlash (s2 :: rest2) := rfl
      rw [hj] at h
      rcases List.mem_append.mp h with hs | ht
      · exact Or.inr ⟨s, List.mem_cons_self _ _, hs⟩
      · rcases List.mem_cons.mp ht with he | hm
        · exact Or.inl he
        · rcases ih hm with he | ⟨u, hu, hc⟩
          · exact Or.inl he
          · exact Or.inr ⟨u, List.mem_cons_of_mem _ hu, hc⟩

theorem percentDecode_no_pct (l : List Char) (h : '%' ∉ l) :
    percentDecode l = some l := by
  induction l with
  | nil => rfl
  | cons c cs ih =>
    have hc : ¬ (c = '%') := fun he => h (he ▸ List.mem_cons_self c cs)
    have hcs : '%' ∉ cs := fun hm => h (List.mem_cons_of_mem _ hm)
    have hrec := ih hcs
    rcases cs with _ | ⟨c1, _ | ⟨c2, cs2⟩⟩
    · have he : percentDecode [c]
          = if c = '%' then none else (percentDecode []).map (fun ds => c :: ds) := rfl
      rw [he, if_neg hc]
      rfl
    · have he : percentDecode [c, c1]
          = if c = '%' then none
            else (percentDecode [c1]).map (fun ds => c :: ds) := rfl
      rw [he, if_neg hc, hrec]
      rfl
    · have he : percentDecode (c :: c1 :: c2 :: cs2)
          = if c = '%' then
              (match hexDigitVal c1, hexDigitVal c2 with
               | some hi, some lo =>
                 if 16 * hi + lo < 128 then
                   (percentDecode cs2).map (fun ds => Char.ofNat (16 * hi + lo) :: ds)
                 else none
               | _, _ => none)
            else (percentDecode (c1 :: c2 :: cs2)).map (fun ds => c :: ds) := rfl
      rw [he, if_neg hc, hrec]
      rfl

theorem map_backslash_id (l : List Char) (h : '\\' ∉ l) :
    l.map (fun c => if c = '\\' then '/' else c) = l := by
  induction l with
  | nil => rfl
  | cons c cs ih =>
    have hc : ¬ (c = '\\') := fun he => h (he ▸ List.mem_cons_self c cs)
    have hcs : '\\' ∉ cs := fun hm => h (List.mem_cons_of_mem _ hm)
    simp only [List.map_cons, if_neg hc, ih hcs]

theorem normAbsChars_clean (S : List (List Char)) (h : ∀ s ∈ S, cleanSeg s) :
    normAbsChars ('/' :: joinSlash S) = '/' :: joinSlash S := by
  unfold normAbsChars
  have h0 : splitSlash ('/' :: joinSlash S) = [] :: splitSlash (joinSlash S) := by
    rw [splitSlash, if_pos rfl]
  rw [h0]
  cases S with
  | nil => rfl
  | cons s rest =>
    rw [splitSlash_joinSlash _ (by simp) (fun t ht => (h t ht).2.2.2.1)]
    have h1 : normStack [] ([] :: s :: rest) = normStack [] (s :: rest) := by
      rw [normStack, if_pos (Or.inl rfl)]
    rw [h1, normStack_clean _ (fun t ht => ⟨(h t ht).1, (h t ht).2.1, (h t ht).2.2.1⟩) []]
    rfl

theorem joinSlash_head_ne_slash (P : List (List Char)) (hP : P ≠ [])
    (h : ∀ s ∈ P, cleanSeg s) : (joinSlash P).head? ≠ some '/' := by
  cases P with
  | nil => exact absurd rfl hP
  | cons p ps =>
    have hpc := h p (List.mem_cons_self _ _)
    obtain ⟨c, cs, hp⟩ : ∃ c cs, p = c :: cs := by
      cases p with
      | nil => exact absurd rfl hpc.1
      | cons c cs => exact ⟨c, cs, rfl⟩
    subst hp
    have hcne : c ≠ '/' := by
      intro he
      exact hpc.2.2.2.1 (he ▸ List.mem_cons_self c cs)
    cases ps with
    | nil =>
      have hj1 : joinSlash [c :: cs] = c :: cs := rfl
      rw [hj1]
      intro he
      exact hcne (by simpa using he)
    | cons q qs =>
      have hj : joinSlash ((c :: cs) :: q :: qs)
          = (c :: cs) ++ '/' :: joinSlash (q :: qs) := rfl
      rw [hj]
      intro he
      exact hcne (by simpa using he)

theorem pathResolveOne_clean (R : List (List Char)) (hRc : ∀ s ∈ R, cleanSeg s) :
    pathResolveOne (String.mk ('/' :: joinSlash R)) = String.mk ('/' :: joinSlash R) := by
  show String.mk (normAbsChars ('/' :: joinSlash R)) = _
  rw [normAbsChars_clean R hRc]

theorem pathResolve_clean (R P : List (List Char)) (hR : R ≠ []) (hP : P ≠ [])
    (hRc : ∀ s ∈ R, cleanSeg s) (hPc : ∀ s ∈ P, cleanSeg s) :
    pathResolve (String.mk ('/' :: joinSlash R)) (String.mk (joinSlash P))
      = String.mk ('/' :: joinSlash (R ++ P)) := by
  unfold pathResolve
  rw [if_neg (joinSlash_head_ne_slash P hP hPc)]
  have harg : (String.mk ('/' :: joinSlash R)).data ++ '/' ::
      (String.mk (joinSlash P)).data = '/' :: joinSlash (R ++ P) := by
    show '/' :: joinSlash R ++ '/' :: joinSlash P = '/' :: joinSlash (R ++ P)
    rw [joinSlash_append R P hR hP]
    rfl
  rw [harg, normAbsChars_clean (R ++ P) (fun s hs => by
    rcases List.mem_append.mp hs with h | h
    · exact hRc s h
    · exact hPc s h)]

/-- C3 amended: for a docs root given as a normalized absolute path
below the filesystem root, and a discovery-shaped relative path whose
clean segments contain no percent sign and no backslash, decoding the
encoded uri succeeds and yields exactly the absolute path of the file
under the docs root. -/
theorem c3_uri_roundtrip_clean (R P : List (List Char))
    (hR : R ≠ []) (hP : P ≠ [])
    (hRc : ∀ s ∈ R, cleanSeg s) (hPc : ∀ s ∈ P, cleanSeg s) :
    resolveDocFilePath (String.mk ('/' :: joinSlash R))
        (toUri (String.mk (joinSlash P)))
      = .ok (String.mk ('/' :: joinSlash R) ++ "/" ++ String.mk (joinSlash P)) := by
  have hPnoslash : '\\' ∉ joinSlash P := by
    intro hm
    rcases joinSlash_mem P _ hm with he | ⟨s, hs, hc⟩
    · exact absurd he (by decide)
    · exact (hPc s hs).2.2.2.2.2 hc
  have hPnopct : '%' ∉ joinSlash P := by
    intro hm
    rcases joinSlash_mem P _ hm with he | ⟨s, hs, hc⟩
    · exact absurd he (by decide)
    · exact (hPc s hs).2.2.2.2.1 hc
  have huri : (toUri (String.mk (joinSlash P))).data = docUriHead ++ joinSlash P := by
    show "feathers-doc://docs/".data ++ (joinSlash P).map
        (fun c => if c = '\\' then '/' else c) = docUriHead ++ joinSlash P
    rw [map_backslash_id _ hPnoslash]
    rfl
  unfold resolveDocFilePath
  rw [huri]
  have hpref : docUriHead.isPrefixOf (docUriHead ++ joinSlash P) = true :=
    List.isPrefixOf_iff_prefix.mpr (List.prefix_append _ _)
  rw [hpref, if_neg (by simp)]
  rw [List.drop_left, percentDecode_no_pct _ hPnopct]
  show (if (pathResolveOne (String.mk ('/' :: joinSlash R))).data.isPrefixOf
      (pathResolve (String.mk ('/' :: joinSlash R))
        (String.mk (joinSlash P))).data = true then
      Except.ok (pathResolve (String.mk ('/' :: joinSlash R))
        (String.mk (joinSlash P)))
    else Except.error ResolveError.pathTraversal)
    = Except.ok (String.mk ('/' :: joinSlash R) ++ "/" ++ String.mk (joinSlash P))
  rw [pathResolveOne_clean R hRc, pathResolve_clean R P hR hP hRc hPc]
  have hjp : ('/' :: joinSlash (R ++ P)) = ('/' :: joinSlash R) ++ '/' :: joinSlash P := by
    rw [joinSlash_append R P hR hP]
    rfl
  have hpref2 : (String.mk ('/' :: joinSlash R)).data.isPrefixOf
      (String.mk ('/' :: joinSlash (R ++ P))).data = true := by
    show ('/' :: joinSlash R).isPrefixOf ('/' :: joinSlash (R ++ P)) = true
    rw [hjp]
    exact List.isPrefixOf_iff_prefix.mpr (List.prefix_append _ _)
  rw [hpref2, if_pos rfl]
  congr 1
  apply String.ext
  show '/' :: joinSlash (R ++ P)
      = (String.mk ('/' :: joinSlash R) ++ "/" ++ String.mk (joinSlash P)).data
  rw [String.data_append, String.data_append]
  rw [hjp]
  simp

/-- C3 witness: the amended round-trip at the concrete docs root and
the concrete relative path, hypotheses discharged by computation. -/
theorem c3_uri_roundtrip_clean_witness :
    resolveDocFilePath (String.mk ('/' :: joinSlash [['d', 'o', 'c', 's']]))
        (toUri (String.mk (joinSlash [['a', '.', 'm', 'd']])))
      = .ok (String.mk ('/' :: joinSlash [['d', 'o', 'c', 's']]) ++ "/"
          ++ String.mk (joinSlash [['a', '.', 'm', 'd']])) :=
  c3_uri_roundtrip_clean [['d', 'o', 'c', 's']] [['a', '.', 'm', 'd']]
    (by decide) (by decide) (by decide) (by decide)

end FeathersDocsMcp
